import Mathlib

/-!
Shallow embedding of the `sec-text-clustering` utilities
(`src/utils/processing.py` and `src/utils/analysis.py`).

Text is modelled as `List Char` (Python strings index by character, and the
relevant operations — `split`, slicing, `in`, `len`, `lower` — act on
characters).  The HTML fetch/parse layer is abstracted away: a scraped
document is a list of `Node`s, each carrying the (optional) style string of
its nested font element and its text content; a `none` style stands for the
code paths where attribute extraction raises and the bare `except: continue`
skips the node.  The topic model is an abstract function from corpus entries
to (topic index, weight) lists, with weights in `ℚ` (only comparisons are
performed on them, so rationals model the Python floats of the examples
exactly).
-/

namespace SecText

/-- Python `str.split(sep)` for a one-character separator: `"" ↦ [""]`,
separators at the ends produce empty pieces. -/
def splitOnChar (sep : Char) : List Char → List (List Char)
  | [] => [[]]
  | c :: rest =>
    let r := splitOnChar sep rest
    if c = sep then [] :: r
    else
      match r with
      | [] => [[c]]
      | h :: t => (c :: h) :: t

/-- Test `startsWithL needle hay`: `needle` is an initial segment of `hay`. -/
def startsWithL : List Char → List Char → Bool
  | [], _ => true
  | _ :: _, [] => false
  | a :: as, b :: bs => a = b && startsWithL as bs

/-- Python `needle in hay` substring containment. -/
def hasSub (needle : List Char) : List Char → Bool
  | [] => startsWithL needle []
  | c :: rest => startsWithL needle (c :: rest) || hasSub needle rest

/-- Python `str.lower()`. -/
def lowerL (s : List Char) : List Char := s.map Char.toLower

/-- Python-`dict` insertion: an existing key keeps its position and gets the
new value, a fresh key is appended at the end. -/
def dictInsert (d : List (List Char × List Char)) (k v : List Char) :
    List (List Char × List Char) :=
  if d.any (fun p => p.1 = k) then
    d.map (fun p => if p.1 = k then (k, v) else p)
  else
    d ++ [(k, v)]

/-- Loop body of `convert_attr_to_dict`: keep the splits of length exactly
two, insert them into the dict. -/
def convertLoop : List (List (List Char)) → List (List Char × List Char) →
    List (List Char × List Char)
  | [], result => result
  | pair :: rest, result =>
    match pair with
    | [k, v] => convertLoop rest (dictInsert result k v)
    | _ => convertLoop rest result

/-- Function `convert_attr_to_dict` (processing.py): split the attribute string on
`;`, split each piece on `:`, keep the pieces that split into exactly two
parts as key/value entries of a dict. -/
def convert_attr_to_dict (attr : List Char) : List (List Char × List Char) :=
  convertLoop ((splitOnChar ';' attr).map (splitOnChar ':')) []

/-- Spec-side description of AttributeParser: the well-formed
(`exactly one colon`) segments, as before/after pairs, in order, no
trimming. -/
def attrPairsSpec (attr : List Char) : List (List Char × List Char) :=
  (splitOnChar ';' attr).filterMap (fun seg =>
    match splitOnChar ':' seg with
    | [k, v] => some (k, v)
    | _ => none)

/-- Folding the spec-side pair list into a dict. -/
def dictOfPairs (ps : List (List Char × List Char)) :
    List (List Char × List Char) :=
  ps.foldl (fun d p => dictInsert d p.1 p.2) []

/-! ## Section extraction (`get_10k_text`) -/

/-- One top-level body node of the parsed filing.  `fontStyle` is the style
attribute of its nested font element when the lookup succeeds; `none` stands
for any failure inside the `try` block (missing font element or missing
style attribute), which the bare `except` turns into skipping the node. -/
structure Node where
  fontStyle : Option (List Char)
  text : List Char
  deriving DecidableEq

def fontWeightKey : List Char := "font-weight".data

def boldVal : List Char := "bold".data

def businessMarker : List Char := "business".data

def riskMarker : List Char := "risk factors".data

/-- Node classification: `none` = attribute extraction failed (node skipped),
`some true` = header (resolved `font-weight` equals `bold`),
`some false` = paragraph. -/
def classify (n : Node) : Option Bool :=
  match n.fontStyle with
  | none => none
  | some st =>
    some (decide (List.lookup fontWeightKey (convert_attr_to_dict st) = some boldVal))

/-- The node loop of `get_10k_text`: state is the `start_recording` flag plus
the accumulated headers and paragraph texts; hitting the end marker `break`s,
returning the accumulators as they stand. -/
def scrapeGo : List Node → Bool → List (List Char) → List (List Char) →
    List (List Char) × List (List Char)
  | [], _, hs, ts => (hs, ts)
  | n :: rest, recording, hs, ts =>
    match classify n with
    | none => scrapeGo rest recording hs ts
    | some true =>
      let recording2 := if hasSub businessMarker (lowerL n.text) then true else recording
      if hasSub riskMarker (lowerL n.text) then (hs, ts)
      else if recording2 then scrapeGo rest recording2 (hs ++ [n.text]) ts
      else scrapeGo rest recording2 hs ts
    | some false =>
      if recording then scrapeGo rest recording hs (ts ++ [n.text])
      else scrapeGo rest recording hs ts

/-- Function `get_10k_text` (processing.py), with the fetched-and-parsed document
abstracted to its top-level node list: returns `(headers, text)`. -/
def get_10k_text (nodes : List Node) : List (List Char) × List (List Char) :=
  scrapeGo nodes false [] []

/-! ## Batch scraping (`scrape_edgar`) -/

/-- The header-repair loop: every header longer than 100 characters is
appended to the document's paragraph list, in header order. -/
def repairHeaders (doc : List (List Char)) : List (List Char) → List (List Char)
  | [] => doc
  | h :: rest => repairHeaders (if 100 < h.length then doc ++ [h] else doc) rest

/-- Function `scrape_edgar` (processing.py), with the URL of each company abstracted to
the node list its fetch-and-parse yields.  Mirrors the source: builds the
`documents` dict, skipping companies whose extracted text is empty, then
repairs long headers; the `section_headers` dict built alongside is not part
of the return value. -/
def scrape_edgar (urls : List (String × List Node)) :
    List (String × List (List Char)) :=
  match urls with
  | [] => []
  | (company, nodes) :: rest =>
    let hd := get_10k_text nodes
    if hd.2 = [] then scrape_edgar rest
    else (company, repairHeaders hd.2 hd.1) :: scrape_edgar rest

/-! ## Token normalization (`map_pos_tag`, `lem_and_stem`) -/

/-- WordNet's reduced POS categories (`wn.NOUN` / `wn.ADJ` / `wn.VERB` /
`wn.ADV`). -/
inductive WnPos where
  | noun
  | adj
  | verb
  | adv
  deriving DecidableEq

/-- Function `map_pos_tag` (processing.py): reduce a Penn tag to its first two
characters and look it up, defaulting to noun. -/
def map_pos_tag (pos : String) : WnPos :=
  let p := pos.data.take 2
  if p = "NN".data then WnPos.noun
  else if p = "JJ".data then WnPos.adj
  else if p = "VB".data then WnPos.verb
  else if p = "RB".data then WnPos.adv
  else WnPos.noun

/-- Function `lem_and_stem` (processing.py); the WordNet lemmatizer and the Porter
stemmer are external collaborators, passed as abstract functions. -/
def lem_and_stem (lemmatize : String → WnPos → String) (stem : String → String)
    (text : List (String × String)) (stopwords : List String) : List String :=
  match text with
  | [] => []
  | (token, pos) :: rest =>
    let p := map_pos_tag pos
    if p ≠ WnPos.noun then lem_and_stem lemmatize stem rest stopwords
    else if token ∉ stopwords ∧ 3 < token.length then
      let processed := stem (lemmatize token p)
      if processed ∉ stopwords then
        processed :: lem_and_stem lemmatize stem rest stopwords
      else lem_and_stem lemmatize stem rest stopwords
    else lem_and_stem lemmatize stem rest stopwords

/-! ## Topic clustering (`cluster_companies_by_main_topic`, analysis.py)

The fitted LDA model is an abstract function from corpus entries to sparse
`(topic index, weight)` lists; weights are rationals (only `max` and `=`
are applied to them).  Python dicts indexed by `0..num_topics-1` are
association lists in index order; failures (`max` of an empty sequence,
`corpus[idx]` out of range, missing topic key) are `Except.error`. -/

/-- Python's binary `max` step: the current value is kept unless the next
one is strictly greater. -/
def pyMaxStep (m x : ℚ) : ℚ := if m < x then x else m

/-- Python `max(iterable)`: `none` on the empty list (where Python raises
`ValueError`). -/
def pyListMax : List ℚ → Option ℚ
  | [] => none
  | w :: ws => some (ws.foldl pyMaxStep w)

/-- Python `list.index(x)`: index of the first occurrence of `x`, `none`
when absent (where Python raises `ValueError`; unreachable in the source,
which only ever looks up `max(weights)`). -/
def pyIndexAux (x : ℚ) : List ℚ → Option Nat
  | [] => none
  | w :: ws => if w = x then some 0 else (pyIndexAux x ws).map (· + 1)

/-- Selection `weights = [w[1] for w in mod_pred]; idx_max = weights.index(max(weights));
max_topic = mod_pred[idx_max][0]` — `none` exactly when `mod_pred` is empty,
in which case Python's `max` raises `ValueError`. -/
def selectTopic (modPred : List (Nat × ℚ)) : Option Nat :=
  (pyListMax (modPred.map Prod.snd)).bind (fun m =>
    (pyIndexAux m (modPred.map Prod.snd)).bind (fun idxMax =>
      (modPred[idxMax]?).map Prod.fst))

/-- Initialization `cluster = \x7b\x7d; for i in range(num_topics): cluster[i] = []`. -/
def initCluster (numTopics : Nat) : List (Nat × List K) :=
  (List.range numTopics).map (fun i => (i, []))

/-- Update `cluster[maxTopic].append(company)`; `none` models the `KeyError` raised
when the topic index is not a key of the dict. -/
def updateBucket (maxTopic : Nat) (company : K) :
    List (Nat × List K) → Option (List (Nat × List K))
  | [] => none
  | (t, b) :: rest =>
    if t = maxTopic then some ((t, b ++ [company]) :: rest)
    else (updateBucket maxTopic company rest).map (fun r => (t, b) :: r)

/-- The loop `for idx, company in enumerate(companies)` of
`cluster_companies_by_main_topic`. -/
def clusterGo (lda : D → List (Nat × ℚ)) (corpus : List D) :
    Nat → List K → List (Nat × List K) → Except String (List (Nat × List K))
  | _, [], cluster => Except.ok cluster
  | idx, company :: rest, cluster =>
    match corpus[idx]? with
    | none => Except.error ("IndexError: corpus")
    | some doc =>
      match selectTopic (lda doc) with
      | none => Except.error ("ValueError: max() arg is an empty sequence")
      | some maxTopic =>
        match updateBucket maxTopic company cluster with
        | none => Except.error ("KeyError: topic")
        | some cluster2 => clusterGo lda corpus (idx + 1) rest cluster2

/-- Function `cluster_companies_by_main_topic` (analysis.py). -/
def cluster_companies_by_main_topic (lda : D → List (Nat × ℚ)) (numTopics : Nat)
    (corpus : List D) (companies : List K) : Except String (List (Nat × List K)) :=
  clusterGo lda corpus 0 companies (initCluster numTopics)

/-- The topic the loop assigns to the company at position `j`: the selection
applied to the model's weights for `corpus[j]`. -/
def topicAt (lda : D → List (Nat × ℚ)) (corpus : List D) (j : Nat) : Option Nat :=
  (corpus[j]?).bind (fun d => selectTopic (lda d))

/-- The bucket update that `updateBucket` performs when the key is present
(and keys are distinct): append the company to the bucket of its topic. -/
def bucketAppend (t : Nat) (c : K) (cl : List (Nat × List K)) :
    List (Nat × List K) :=
  cl.map (fun tb => if tb.1 = t then (tb.1, tb.2 ++ [c]) else tb)

/-- Spec-side description of BatchScraper's actual output as a single
mapping: the sources whose extraction yields non-empty paragraph text, each
with its repaired paragraph list. -/
def scrapeSpecSingle (urls : List (String × List Node)) :
    List (String × List (List Char)) :=
  urls.filterMap (fun cu =>
    if (get_10k_text cu.2).2 = [] then none
    else some (cu.1, repairHeaders (get_10k_text cu.2).2 (get_10k_text cu.2).1))

/-! ## Example inputs used by witnesses and counterexamples -/

/-- A bold node whose text contains the start marker. -/
def bizNode : Node := ⟨some ("font-weight:bold").data, ("Item 1. Business").data⟩

/-- A second bold start-marker node with different text. -/
def bizNode2 : Node := ⟨some ("font-weight:bold").data, ("Business Overview").data⟩

/-- A bold node whose text contains the end marker. -/
def riskNode : Node := ⟨some ("font-weight:bold").data, ("Item 1A. Risk Factors").data⟩

/-- A non-bold paragraph node. -/
def paraNode : Node := ⟨some ("font-size:11pt").data, ("We make widgets.").data⟩

/-- A node whose attribute extraction fails (skipped by the bare `except`). -/
def brokenNode : Node := ⟨none, ("junk").data⟩

/-- A bold start-marker node whose text is longer than 100 characters, so the
repair step also appends it to the paragraph list. -/
def longBizNode : Node :=
  ⟨some ("font-weight:bold").data, ("business ").data ++ List.replicate 100 'x'⟩

/-- The topic model of the spec's end-to-end example: corpus entry `0`
(source A) has weights `[(0, 0.1), (1, 0.9)]`, corpus entry `1` (source B)
has weights `[(0, 0.8), (1, 0.2)]`. -/
def ldaEx : Nat → List (Nat × ℚ) := fun d =>
  if d = 0 then [(0, mkRat 1 10), (1, mkRat 9 10)]
  else [(0, mkRat 8 10), (1, mkRat 2 10)]

/-- A model that yields an empty weight list on every corpus entry except `5`. -/
def ldaEmptyEx : Nat → List (Nat × ℚ) := fun d =>
  if d = 5 then [(0, mkRat 1 2)] else []

/-! ## C5 and C10: behaviour of the section-extraction loop at marker nodes -/

/-- C5: upon the first bold-classified node whose text (case-insensitively)
contains "risk factors", `get_10k_text`'s loop stops immediately: whatever the
recording flag and the accumulated headers and paragraphs are, the result is
exactly the accumulators — the node's text is appended to neither list, and
the remaining nodes (arbitrary here) are never processed. -/
theorem scrapeGo_stops_at_risk_marker (n : Node) (rest : List Node)
    (recording : Bool) (hs ts : List (List Char))
    (hH : classify n = some true)
    (hR : hasSub riskMarker (lowerL n.text) = true) :
    scrapeGo (n :: rest) recording hs ts = (hs, ts) := by
  unfold scrapeGo
  rw [hH]
  simp [hR]

/-- Closed instance of `scrapeGo_stops_at_risk_marker`: a bold "Risk Factors"
node ends processing with the accumulators unchanged even while recording,
with further nodes pending. -/
theorem scrapeGo_stops_at_risk_marker_witness :
    scrapeGo [riskNode, paraNode] true [("h").data] [("t").data] =
      ([("h").data], [("t").data]) :=
  scrapeGo_stops_at_risk_marker riskNode [paraNode] true [("h").data]
    [("t").data] (by decide) (by decide)

/-- C10: a bold-classified node whose text (case-insensitively) contains
"business" but not "risk factors" both switches recording on and has its own
text appended to the headers: the loop continues on the remaining nodes with
the flag set and the node's text at the end of the header accumulator. -/
theorem scrapeGo_business_marker_recorded (n : Node) (rest : List Node)
    (recording : Bool) (hs ts : List (List Char))
    (hH : classify n = some true)
    (hB : hasSub businessMarker (lowerL n.text) = true)
    (hR : hasSub riskMarker (lowerL n.text) = false) :
    scrapeGo (n :: rest) recording hs ts =
      scrapeGo rest true (hs ++ [n.text]) ts := by
  conv_lhs => unfold scrapeGo
  rw [hH]
  simp [hB, hR]

/-- Closed instance of `scrapeGo_business_marker_recorded`: the bold
"Item 1. Business" node turns recording on (from off) and lands in the
headers itself. -/
theorem scrapeGo_business_marker_recorded_witness :
    scrapeGo [bizNode, paraNode] false [] [] =
      scrapeGo [paraNode] true [bizNode.text] [] :=
  scrapeGo_business_marker_recorded bizNode [paraNode] false [] []
    (by decide) (by decide) (by decide)

/-! ## C2: the LemmaFilter retention rule -/

/-- C2: `lem_and_stem` emits, in input order, exactly the tokens whose
first-two-character POS reduction is noun, that are not stopwords, have
length strictly greater than 3, and whose stemmed lemma (computed at the
reduced POS, noun) is not a stopword either; each survivor is emitted as
that stemmed lemma, POS tag dropped.  Moreover a tag matching none of the
known prefixes (`NN`/`JJ`/`VB`/`RB`) reduces to noun (the default-inclusion
quirk). -/
theorem lem_and_stem_retention (lemmatize : String → WnPos → String)
    (stem : String → String) (text : List (String × String))
    (stopwords : List String) :
    lem_and_stem lemmatize stem text stopwords =
      text.filterMap (fun tp =>
        if map_pos_tag tp.2 = WnPos.noun ∧ tp.1 ∉ stopwords ∧ 3 < tp.1.length ∧
            stem (lemmatize tp.1 WnPos.noun) ∉ stopwords then
          some (stem (lemmatize tp.1 WnPos.noun))
        else none) ∧
    ∀ pos : String, pos.data.take 2 ≠ ("NN").data → pos.data.take 2 ≠ ("JJ").data →
      pos.data.take 2 ≠ ("VB").data → pos.data.take 2 ≠ ("RB").data →
      map_pos_tag pos = WnPos.noun := by
  constructor
  · induction text with
    | nil => rfl
    | cons tp rest ih =>
      obtain ⟨token, pos⟩ := tp
      rw [List.filterMap_cons]
      by_cases h1 : map_pos_tag pos = WnPos.noun
      · by_cases h2 : token ∈ stopwords
        · simp only [lem_and_stem, h1, h2]
          simp [ih]
        · by_cases h3 : 3 < token.length
          · by_cases h4 : stem (lemmatize token WnPos.noun) ∈ stopwords
            · simp only [lem_and_stem, h1, h2, h3, h4]
              simp [ih, h2, h3, h4]
            · simp only [lem_and_stem, h1, h2, h3, h4]
              simp [ih, h2, h3, h4]
          · simp only [lem_and_stem, h1, h2, h3]
            simp [ih, h2, h3]
      · simp only [lem_and_stem, h1]
        simp [ih, h1]
  · intro pos hNN hJJ hVB hRB
    simp only [map_pos_tag, hNN, hJJ, hVB, hRB, if_false]

/-- Closed instance of the default-noun quirk in `lem_and_stem_retention`
and of the spec's worked example: the verb-tagged token is dropped, the
noun-tagged one is kept as its stemmed lemma. -/
theorem lem_and_stem_retention_witness :
    map_pos_tag ("XY") = WnPos.noun ∧
    lem_and_stem (fun t _ => t) (fun t => if t = ("company") then ("compani") else t)
      [(("running"), ("VB")), (("company"), ("NN"))] [("the")] = [("compani")] := by
  constructor
  · exact (lem_and_stem_retention (fun t _ => t) (fun t => t) [] []).2 ("XY")
      (by decide) (by decide) (by decide) (by decide)
  · rw [(lem_and_stem_retention (fun t _ => t)
      (fun t => if t = ("company") then ("compani") else t)
      [(("running"), ("VB")), (("company"), ("NN"))] [("the")]).1]
    decide

/-! ## C7: AttributeParser -/

theorem convertLoop_eq_foldl (segs : List (List (List Char)))
    (acc : List (List Char × List Char)) :
    convertLoop segs acc =
      (segs.filterMap (fun pair =>
        match pair with
        | [k, v] => some ((k : List Char), (v : List Char))
        | _ => none)).foldl (fun d p => dictInsert d p.1 p.2) acc := by
  induction segs generalizing acc with
  | nil => rfl
  | cons pair rest ih =>
    match pair with
    | [] => simpa [convertLoop, List.filterMap] using ih acc
    | [k] => simpa [convertLoop, List.filterMap] using ih acc
    | [k, v] => simpa [convertLoop, List.filterMap] using ih (dictInsert acc k v)
    | k :: v :: w :: t => simpa [convertLoop, List.filterMap] using ih acc

theorem convert_attr_eq_spec (attr : List Char) :
    convert_attr_to_dict attr = dictOfPairs (attrPairsSpec attr) := by
  show convertLoop _ _ = _
  rw [convertLoop_eq_foldl]
  unfold dictOfPairs attrPairsSpec
  rw [List.filterMap_map]
  rfl

example : convert_attr_to_dict ("font-weight:bold;bad;font-size:11pt").data =
    [("font-weight".data, "bold".data), ("font-size".data, "11pt".data)] := by
  decide

example : convert_attr_to_dict ("").data = [] := by decide

theorem dictInsert_fresh (d : List (List Char × List Char)) (k v : List Char)
    (h : ∀ q ∈ d, q.1 ≠ k) : dictInsert d k v = d ++ [(k, v)] := by
  unfold dictInsert
  rw [if_neg]
  simp only [List.any_eq_true, decide_eq_true_eq, not_exists, not_and]
  intro q hq
  exact h q hq

theorem foldl_dictInsert_fresh (ps : List (List Char × List Char))
    (acc : List (List Char × List Char))
    (hfresh : ∀ p ∈ ps, ∀ q ∈ acc, q.1 ≠ p.1)
    (hnd : (ps.map Prod.fst).Nodup) :
    ps.foldl (fun d p => dictInsert d p.1 p.2) acc = acc ++ ps := by
  induction ps generalizing acc with
  | nil => simp
  | cons p rest ih =>
    rw [List.foldl_cons, dictInsert_fresh acc p.1 p.2 (fun q hq => hfresh p (by simp) q hq)]
    rw [List.map_cons, List.nodup_cons] at hnd
    rw [ih (acc ++ [(p.1, p.2)]) ?_ hnd.2]
    · simp
    · intro r hr q hq
      rcases List.mem_append.1 hq with hq | hq
      · exact hfresh r (List.mem_cons_of_mem p hr) q hq
      · rcases List.mem_singleton.1 hq with rfl
        intro hcontra
        exact hnd.1 (hcontra ▸ List.mem_map_of_mem Prod.fst hr)

/-- C7: `convert_attr_to_dict` splits on `;` and keeps exactly the segments
that split on `:` into exactly two parts, mapping the part before the colon
to the part after (no whitespace trimming anywhere); malformed segments are
silently discarded, the empty string yields the empty mapping, and the
spec's example evaluates as stated.  When the well-formed segments have
distinct keys the resulting dict is literally that pair list. -/
theorem convert_attr_to_dict_keeps_two_part_segments :
    (∀ attr, convert_attr_to_dict attr = dictOfPairs (attrPairsSpec attr)) ∧
    (∀ attr, ((attrPairsSpec attr).map Prod.fst).Nodup →
      convert_attr_to_dict attr = attrPairsSpec attr) ∧
    convert_attr_to_dict ("").data = [] ∧
    convert_attr_to_dict ("font-weight:bold;bad;font-size:11pt").data =
      [(("font-weight").data, ("bold").data), (("font-size").data, ("11pt").data)] := by
  refine ⟨convert_attr_eq_spec, ?_, by decide, by decide⟩
  intro attr hnd
  rw [convert_attr_eq_spec attr]
  unfold dictOfPairs
  rw [foldl_dictInsert_fresh _ [] (by simp) hnd]
  simp

/-- Closed instance of `convert_attr_to_dict_keeps_two_part_segments`: on the
spec's example the keys are distinct, so the dict is the well-formed pair
list itself. -/
theorem convert_attr_to_dict_keeps_two_part_segments_witness :
    convert_attr_to_dict ("font-weight:bold;bad;font-size:11pt").data =
      attrPairsSpec ("font-weight:bold;bad;font-size:11pt").data :=
  convert_attr_to_dict_keeps_two_part_segments.2.1
    ("font-weight:bold;bad;font-size:11pt").data (by decide)

/-! ## C9, C8, C1: BatchScraper -/

theorem repairHeaders_eq_append (hs : List (List Char)) (doc : List (List Char)) :
    repairHeaders doc hs = doc ++ hs.filter (fun h => decide (100 < h.length)) := by
  induction hs generalizing doc with
  | nil => simp [repairHeaders]
  | cons h rest ih =>
    rw [repairHeaders, ih]
    by_cases hlen : 100 < h.length
    · simp [hlen]
    · simp [hlen]

/-- C9: every entry of `scrape_edgar`'s output holds the extracted paragraph
list of its source followed (in recorded header order) by exactly those
recorded headers whose length exceeds 100 characters; headers of length at
most 100 are not appended, and only sources with a non-empty extracted
paragraph list occur. -/
theorem scrape_edgar_repairs_long_headers (urls : List (String × List Node))
    (c : String) (doc : List (List Char)) (hmem : (c, doc) ∈ scrape_edgar urls) :
    ∃ nodes, (c, nodes) ∈ urls ∧ (get_10k_text nodes).2 ≠ [] ∧
      doc = (get_10k_text nodes).2 ++
        (get_10k_text nodes).1.filter (fun h => decide (100 < h.length)) := by
  induction urls with
  | nil => simp [scrape_edgar] at hmem
  | cons cu rest ih =>
    obtain ⟨company, nodes⟩ := cu
    rw [scrape_edgar] at hmem
    by_cases hempty : (get_10k_text nodes).2 = []
    · simp only [hempty, if_pos rfl] at hmem
      obtain ⟨ns, h1, h2, h3⟩ := ih hmem
      exact ⟨ns, List.mem_cons_of_mem _ h1, h2, h3⟩
    · rw [if_neg hempty] at hmem
      rcases List.mem_cons.1 hmem with heq | htail
      · obtain ⟨rfl, rfl⟩ := Prod.mk.injEq .. ▸ heq
        refine ⟨nodes, List.mem_cons_self .., hempty, ?_⟩
        exact repairHeaders_eq_append _ _
      · obtain ⟨ns, h1, h2, h3⟩ := ih htail
        exact ⟨ns, List.mem_cons_of_mem _ h1, h2, h3⟩

/-- Closed instance of `scrape_edgar_repairs_long_headers`: with one source
whose recorded header is 109 characters long, the output document is the
extracted paragraph followed by that header. -/
theorem scrape_edgar_repairs_long_headers_witness :
    ∃ nodes, (("A"), nodes) ∈ [(("A"), [longBizNode, paraNode])] ∧
      (get_10k_text nodes).2 ≠ [] ∧
      paraNode.text :: [longBizNode.text] = (get_10k_text nodes).2 ++
        (get_10k_text nodes).1.filter (fun h => decide (100 < h.length)) :=
  scrape_edgar_repairs_long_headers [(("A"), [longBizNode, paraNode])] ("A")
    (paraNode.text :: [longBizNode.text]) (by decide)

/-- C8: a source key occurs in `scrape_edgar`'s output exactly when one of
its input entries has a non-empty extracted paragraph list; in particular a
source whose extraction yields no paragraph text is dropped, and the drop is
silent — `scrape_edgar` is total, no error value exists in its type. -/
theorem scrape_edgar_keeps_iff_nonempty (urls : List (String × List Node))
    (c : String) :
    (∃ doc, (c, doc) ∈ scrape_edgar urls) ↔
      ∃ nodes, (c, nodes) ∈ urls ∧ (get_10k_text nodes).2 ≠ [] := by
  induction urls with
  | nil => simp [scrape_edgar]
  | cons cu rest ih =>
    obtain ⟨company, nodes⟩ := cu
    rw [scrape_edgar]
    by_cases hempty : (get_10k_text nodes).2 = []
    · rw [if_pos hempty]
      constructor
      · rintro ⟨doc, hdoc⟩
        obtain ⟨ns, h1, h2⟩ := ih.1 ⟨doc, hdoc⟩
        exact ⟨ns, List.mem_cons_of_mem _ h1, h2⟩
      · rintro ⟨ns, h1, h2⟩
        rcases List.mem_cons.1 h1 with heq | htail
        · obtain ⟨rfl, rfl⟩ := Prod.mk.injEq .. ▸ heq
          exact absurd hempty h2
        · exact ih.2 ⟨ns, htail, h2⟩
    · rw [if_neg hempty]
      constructor
      · rintro ⟨doc, hdoc⟩
        rcases List.mem_cons.1 hdoc with heq | htail
        · obtain ⟨rfl, rfl⟩ := Prod.mk.injEq .. ▸ heq
          exact ⟨nodes, List.mem_cons_self .., hempty⟩
        · obtain ⟨ns, h1, h2⟩ := ih.1 ⟨doc, htail⟩
          exact ⟨ns, List.mem_cons_of_mem _ h1, h2⟩
      · rintro ⟨ns, h1, h2⟩
        rcases List.mem_cons.1 h1 with heq | htail
        · obtain ⟨rfl, rfl⟩ := Prod.mk.injEq .. ▸ heq
          exact ⟨_, List.mem_cons_self ..⟩
        · obtain ⟨doc, hdoc⟩ := ih.2 ⟨ns, htail, h2⟩
          exact ⟨doc, List.mem_cons_of_mem _ hdoc⟩

/-- C1 counterexample: two input mappings whose sources scrape to the same
paragraphs but different header lists produce identical `scrape_edgar`
outputs, so the returned value cannot contain the source-to-header mapping —
the function returns only the paragraph mapping (the `section_headers` dict
is built but dropped). -/
theorem scrape_edgar_output_forgets_headers :
    scrape_edgar [(("A"), [bizNode, paraNode])] =
      scrape_edgar [(("A"), [bizNode2, paraNode])] ∧
    (get_10k_text [bizNode, paraNode]).1 ≠ (get_10k_text [bizNode2, paraNode]).1 := by
  decide

/-- C1 (amended): for every input mapping of source keys to URLs,
`scrape_edgar` returns one mapping — source key to (repaired) paragraph
list — restricted to successfully-scraped sources; the header mapping is
accumulated internally but is not part of the return value. -/
theorem scrape_edgar_single_mapping (urls : List (String × List Node)) :
    scrape_edgar urls = scrapeSpecSingle urls := by
  induction urls with
  | nil => rfl
  | cons cu rest ih =>
    obtain ⟨company, nodes⟩ := cu
    by_cases hempty : (get_10k_text nodes).2 = []
    · simp only [scrape_edgar, scrapeSpecSingle, List.filterMap_cons, hempty,
        if_pos rfl]
      exact ih
    · simp only [scrape_edgar, scrapeSpecSingle, List.filterMap_cons, if_neg hempty]
      rw [ih]
      rfl

/-! ## Helper lemmas for the topic-clustering loop -/

theorem foldl_pyMaxStep_le (l : List ℚ) (a : ℚ) :
    a ≤ l.foldl pyMaxStep a ∧ ∀ w ∈ l, w ≤ l.foldl pyMaxStep a := by
  induction l generalizing a with
  | nil => simp
  | cons w ws ih =>
    rw [List.foldl_cons]
    have hstep : a ≤ pyMaxStep a w ∧ w ≤ pyMaxStep a w := by
      unfold pyMaxStep
      by_cases h : a < w
      · simp [h, le_of_lt h]
      · simp [h, le_of_not_lt h]
    obtain ⟨h1, h2⟩ := ih (pyMaxStep a w)
    refine ⟨le_trans hstep.1 h1, ?_⟩
    intro x hx
    rcases List.mem_cons.1 hx with rfl | hx
    · exact le_trans hstep.2 h1
    · exact h2 x hx

theorem foldl_pyMaxStep_mem (l : List ℚ) (a : ℚ) :
    l.foldl pyMaxStep a = a ∨ l.foldl pyMaxStep a ∈ l := by
  induction l generalizing a with
  | nil => simp
  | cons w ws ih =>
    rw [List.foldl_cons]
    rcases ih (pyMaxStep a w) with h | h
    · rw [h]
      unfold pyMaxStep
      by_cases hc : a < w
      · right
        simp [hc]
      · left
        simp [hc]
    · right
      exact List.mem_cons_of_mem _ h

theorem pyListMax_spec (l : List ℚ) (m : ℚ) (h : pyListMax l = some m) :
    m ∈ l ∧ ∀ w ∈ l, w ≤ m := by
  match l with
  | [] => simp [pyListMax] at h
  | w :: ws =>
    rw [pyListMax, Option.some.injEq] at h
    subst h
    constructor
    · rcases foldl_pyMaxStep_mem ws w with h' | h'
      · rw [h']
        exact List.mem_cons_self ..
      · exact List.mem_cons_of_mem _ h'
    · intro x hx
      rcases List.mem_cons.1 hx with rfl | hx
      · exact (foldl_pyMaxStep_le ws x).1
      · exact (foldl_pyMaxStep_le ws w).2 x hx

theorem pyListMax_ne_nil (l : List ℚ) (hne : l ≠ []) :
    ∃ m, pyListMax l = some m := by
  match l with
  | [] => exact absurd rfl hne
  | w :: ws => exact ⟨_, rfl⟩

theorem pyIndexAux_total (x : ℚ) (l : List ℚ) (h : x ∈ l) :
    ∃ i, pyIndexAux x l = some i := by
  induction l with
  | nil => simp at h
  | cons w ws ih =>
    rw [pyIndexAux]
    by_cases hw : w = x
    · exact ⟨0, by rw [if_pos hw]⟩
    · rcases List.mem_cons.1 h with rfl | h'
      · exact absurd rfl hw
      · obtain ⟨i, hi⟩ := ih h'
        exact ⟨i + 1, by rw [if_neg hw, hi]; rfl⟩

theorem pyIndexAux_spec (x : ℚ) (l : List ℚ) (i : Nat)
    (h : pyIndexAux x l = some i) :
    l[i]? = some x ∧ ∀ j b, j < i → l[j]? = some b → b ≠ x := by
  induction l generalizing i with
  | nil => simp [pyIndexAux] at h
  | cons w ws ih =>
    rw [pyIndexAux] at h
    by_cases hw : w = x
    · rw [if_pos hw, Option.some.injEq] at h
      subst h
      subst hw
      exact ⟨by simp, by omega⟩
    · rw [if_neg hw] at h
      match hmap : pyIndexAux x ws with
      | none =>
        rw [hmap] at h
        simp at h
      | some i' =>
        rw [hmap] at h
        replace h : i' + 1 = i := by simpa using h
        subst h
        obtain ⟨h1, h2⟩ := ih i' hmap
        refine ⟨by simpa using h1, ?_⟩
        intro j b hj hjb
        match j with
        | 0 =>
          simp only [List.getElem?_cons_zero, Option.some.injEq] at hjb
          subst hjb
          exact hw
        | j' + 1 =>
          exact h2 j' b (by omega) (by simpa using hjb)

theorem selectTopic_first_max (l : List (Nat × ℚ)) (t : Nat)
    (h : selectTopic l = some t) :
    ∃ (i : Nat) (p : Nat × ℚ), l[i]? = some p ∧ t = p.1 ∧
      (∀ q ∈ l, q.2 ≤ p.2) ∧
      ∀ (j : Nat) (q : Nat × ℚ), j < i → l[j]? = some q → q.2 < p.2 := by
  unfold selectTopic at h
  obtain ⟨m, hmax, h⟩ := Option.bind_eq_some.1 h
  obtain ⟨i, hidx, h⟩ := Option.bind_eq_some.1 h
  obtain ⟨-, hle⟩ := pyListMax_spec _ m hmax
  obtain ⟨h1, h2⟩ := pyIndexAux_spec m _ i hidx
  rw [List.getElem?_map] at h1
  obtain ⟨p, hp, hpt⟩ := Option.map_eq_some'.1 h
  have hpm : p.2 = m := by
    rw [hp] at h1
    simpa using h1
  refine ⟨i, p, hp, hpt.symm, ?_, ?_⟩
  · intro q hq
    rw [hpm]
    exact hle q.2 (List.mem_map_of_mem Prod.snd hq)
  · intro j q hj hjq
    have hne : q.2 ≠ m := by
      apply h2 j q.2 hj
      rw [List.getElem?_map, hjq]
      rfl
    rw [hpm]
    exact lt_of_le_of_ne
      (hle q.2 (List.mem_map_of_mem Prod.snd (List.getElem?_mem hjq))) hne

theorem selectTopic_total (l : List (Nat × ℚ)) (hne : l ≠ []) :
    ∃ (t : Nat) (p : Nat × ℚ), selectTopic l = some t ∧ p ∈ l ∧ p.1 = t := by
  have hwne : l.map Prod.snd ≠ [] := by
    simpa using hne
  obtain ⟨m, hmax⟩ := pyListMax_ne_nil _ hwne
  obtain ⟨hmem, -⟩ := pyListMax_spec _ m hmax
  obtain ⟨i, hidx⟩ := pyIndexAux_total m _ hmem
  obtain ⟨h1, -⟩ := pyIndexAux_spec m _ i hidx
  rw [List.getElem?_map] at h1
  obtain ⟨p, hp, -⟩ := Option.map_eq_some'.1 h1
  refine ⟨p.1, p, ?_, List.getElem?_mem hp, rfl⟩
  unfold selectTopic
  rw [hmax, Option.some_bind, hidx, Option.some_bind, hp]
  rfl

theorem bucketAppend_of_not_mem (t : Nat) (c : K) (cl : List (Nat × List K))
    (h : t ∉ cl.map Prod.fst) : bucketAppend t c cl = cl := by
  induction cl with
  | nil => rfl
  | cons tb rest ih =>
    rw [List.map_cons, List.mem_cons] at h
    push_neg at h
    rw [bucketAppend, List.map_cons]
    rw [if_neg (fun heq => h.1 heq.symm)]
    have := ih h.2
    rw [bucketAppend] at this
    rw [this]

theorem bucketAppend_keys (t : Nat) (c : K) (cl : List (Nat × List K)) :
    (bucketAppend t c cl).map Prod.fst = cl.map Prod.fst := by
  induction cl with
  | nil => rfl
  | cons tb rest ih =>
    rw [bucketAppend, List.map_cons, List.map_cons, List.map_cons]
    rw [bucketAppend] at ih
    rw [ih]
    by_cases ht : tb.1 = t
    · rw [if_pos ht]
    · rw [if_neg ht]

theorem updateBucket_eq_bucketAppend (t : Nat) (c : K) (cl : List (Nat × List K))
    (hnd : (cl.map Prod.fst).Nodup) (hmem : t ∈ cl.map Prod.fst) :
    updateBucket t c cl = some (bucketAppend t c cl) := by
  induction cl with
  | nil => simp at hmem
  | cons tb rest ih =>
    obtain ⟨t0, b⟩ := tb
    rw [List.map_cons, List.nodup_cons] at hnd
    rw [updateBucket, bucketAppend, List.map_cons]
    by_cases ht : t0 = t
    · rw [if_pos ht]
      simp only [if_pos ht]
      have hrest := bucketAppend_of_not_mem t c rest (ht ▸ hnd.1)
      rw [bucketAppend] at hrest
      rw [hrest]
    · rw [if_neg ht]
      have hmem' : t ∈ rest.map Prod.fst := by
        rcases List.mem_cons.1 (List.map_cons Prod.fst (t0, b) rest ▸ hmem)
          with heq | h'
        · exact absurd heq.symm ht
        · exact h'
      rw [ih hnd.2 hmem']
      simp only [if_neg ht]
      rfl

theorem bucketAppend_countP_sum (t : Nat) (c : K) (cl : List (Nat × List K))
    (hnd : (cl.map Prod.fst).Nodup) (hmem : t ∈ cl.map Prod.fst) (p : K → Bool) :
    ((bucketAppend t c cl).map (fun tb => tb.2.countP p)).sum =
      (cl.map (fun tb => tb.2.countP p)).sum + (if p c then 1 else 0) := by
  induction cl with
  | nil => simp at hmem
  | cons tb rest ih =>
    rw [List.map_cons, List.nodup_cons] at hnd
    rw [bucketAppend, List.map_cons, List.map_cons, List.map_cons, List.sum_cons,
      List.sum_cons]
    by_cases ht : tb.1 = t
    · rw [if_pos ht]
      have hrest : bucketAppend t c rest = rest :=
        bucketAppend_of_not_mem t c rest (ht ▸ hnd.1)
      rw [bucketAppend] at hrest
      rw [hrest]
      simp only [List.countP_append]
      have hc : List.countP p [c] = if p c then 1 else 0 := by
        by_cases hpc : p c
        · simp [List.countP_cons, hpc]
        · simp [List.countP_cons, hpc]
      rw [hc]
      omega
    · rw [if_neg ht]
      have hmem' : t ∈ rest.map Prod.fst := by
        rcases List.mem_cons.1 (List.map_cons Prod.fst tb rest ▸ hmem) with heq | h'
        · exact absurd heq.symm ht
        · exact h'
      have := ih hnd.2 hmem'
      rw [bucketAppend] at this
      rw [this]
      omega

theorem initCluster_keys (n : Nat) :
    ((initCluster n : List (Nat × List K)).map Prod.fst) = List.range n := by
  simp [initCluster, Function.comp_def]

theorem initCluster_countP_sum (n : Nat) (p : K → Bool) :
    (((initCluster n : List (Nat × List K))).map
      (fun tb => tb.2.countP p)).sum = 0 := by
  simp [initCluster, Function.comp_def]

/-- Stepping lemma: as long as every company in the prefix `cs` resolves to
a topic that is a key of the cluster dict, the loop processes `cs` without
error, reaching the remaining companies with the same keys and with each
bucket extended so that, for any Boolean predicate, the total count over all
buckets grows by the count in `cs`. -/
theorem clusterGo_prefix (lda : D → List (Nat × ℚ)) (corpus : List D)
    (cs rest : List K) (idx : Nat) (cl : List (Nat × List K))
    (hnd : (cl.map Prod.fst).Nodup)
    (H : ∀ j, j < cs.length → ∃ t, topicAt lda corpus (idx + j) = some t ∧
        t ∈ cl.map Prod.fst) :
    ∃ cl', clusterGo lda corpus idx (cs ++ rest) cl =
        clusterGo lda corpus (idx + cs.length) rest cl' ∧
      cl'.map Prod.fst = cl.map Prod.fst ∧
      ∀ p : K → Bool, (cl'.map (fun tb => tb.2.countP p)).sum =
        (cl.map (fun tb => tb.2.countP p)).sum + cs.countP p := by
  induction cs generalizing idx cl with
  | nil => exact ⟨cl, by simp, rfl, by simp⟩
  | cons c cs ih =>
    obtain ⟨t, htop, htmem⟩ := H 0 (by simp)
    rw [Nat.add_zero] at htop
    obtain ⟨d, hd, hsel⟩ := Option.bind_eq_some.1 htop
    have hupd := updateBucket_eq_bucketAppend t c cl hnd htmem
    have hstep : clusterGo lda corpus idx ((c :: cs) ++ rest) cl =
        clusterGo lda corpus (idx + 1) (cs ++ rest) (bucketAppend t c cl) := by
      rw [List.cons_append]
      conv_lhs => rw [clusterGo]
      split
      · next heq => rw [hd] at heq; cases heq
      · next doc heq =>
        rw [hd, Option.some.injEq] at heq
        subst heq
        split
        · next heq2 => rw [hsel] at heq2; cases heq2
        · next t' heq2 =>
          rw [hsel, Option.some.injEq] at heq2
          subst heq2
          split
          · next heq3 => rw [hupd] at heq3; cases heq3
          · next cl2 heq3 =>
            rw [hupd, Option.some.injEq] at heq3
            subst heq3
            rfl
    obtain ⟨cl', h1, h2, h3⟩ := ih (idx + 1) (bucketAppend t c cl)
      (by rw [bucketAppend_keys]; exact hnd)
      (by
        intro j hj
        obtain ⟨t', ht1, ht2⟩ := H (j + 1) (by simpa using Nat.succ_lt_succ hj)
        refine ⟨t', ?_, by rwa [bucketAppend_keys]⟩
        rwa [show idx + 1 + j = idx + (j + 1) by omega])
    refine ⟨cl', ?_, by rwa [bucketAppend_keys] at h2, ?_⟩
    · rw [hstep, h1]
      rw [show idx + 1 + cs.length = idx + (c :: cs).length by simp; omega]
    · intro p
      rw [h3 p, bucketAppend_countP_sum t c cl hnd htmem p, List.countP_cons]
      omega

theorem countP_eq_one_of_nodup {K : Type} [DecidableEq K] (l : List K)
    (hnd : l.Nodup) (c : K) (hc : c ∈ l) :
    l.countP (fun x => decide (x = c)) = 1 := by
  induction l with
  | nil => simp at hc
  | cons a l ih =>
    rw [List.nodup_cons] at hnd
    rw [List.countP_cons]
    by_cases hac : a = c
    · subst hac
      have hz : l.countP (fun x => decide (x = a)) = 0 := by
        rw [List.countP_eq_zero]
        intro b hb
        simp only [decide_eq_true_eq]
        intro hba
        subst hba
        exact hnd.1 hb
      rw [hz]
      simp
    · rcases List.mem_cons.1 hc with rfl | hcl
      · exact absurd rfl hac
      · rw [ih hnd.2 hcl]
        simp [hac]

theorem countP_pos_of_sum_one (ns : List Nat) (h : ns.sum = 1) :
    ns.countP (fun k => decide (0 < k)) = 1 := by
  induction ns with
  | nil => simp at h
  | cons k ks ih =>
    rw [List.sum_cons] at h
    rw [List.countP_cons]
    by_cases hk : 0 < k
    · have hks : ks.sum = 0 := by omega
      have hz : ks.countP (fun k => decide (0 < k)) = 0 := by
        rw [List.countP_eq_zero]
        intro b hb
        have hb0 : b = 0 := by
          have := List.sum_eq_zero_iff.1 hks b hb
          omega
        simp [hb0]
      rw [hz]
      simp [hk]
    · have hk0 : k = 0 := by omega
      subst hk0
      have := ih (by omega)
      simpa using this

theorem countP_buckets_containing {K : Type} [DecidableEq K]
    (res : List (Nat × List K)) (c : K) :
    res.countP (fun tb => decide (c ∈ tb.2)) =
      (res.map (fun tb => tb.2.countP (fun x => decide (x = c)))).countP
        (fun k => decide (0 < k)) := by
  rw [List.countP_map]
  congr 1
  funext tb
  show decide (c ∈ tb.2) = decide (0 < tb.2.countP (fun x => decide (x = c)))
  rw [decide_eq_decide, List.countP_pos_iff]
  simp

/-! ## C3, C4, C6: TopicClusterer -/

/-- C3: the topic selected for a corpus entry is the first coordinate of the
first weight pair attaining the maximal weight — every pair's weight is at
most the chosen pair's, and every strictly earlier pair has strictly smaller
weight; and on the spec's end-to-end example (weights 0.1/0.9 for source A
and 0.8/0.2 for source B, two topics) the clustering is
`[(0, [B]), (1, [A])]`. -/
theorem cluster_appends_to_first_max_topic :
    (∀ (l : List (Nat × ℚ)) (t : Nat), selectTopic l = some t →
      ∃ (i : Nat) (p : Nat × ℚ), l[i]? = some p ∧ t = p.1 ∧
        (∀ q ∈ l, q.2 ≤ p.2) ∧
        ∀ (j : Nat) (q : Nat × ℚ), j < i → l[j]? = some q → q.2 < p.2) ∧
    cluster_companies_by_main_topic ldaEx 2 [0, 1] [("A"), ("B")] =
      Except.ok [(0, [("B")]), (1, [("A")])] := by
  exact ⟨fun l t h => selectTopic_first_max l t h, by rfl⟩

/-- Closed instance of `cluster_appends_to_first_max_topic` at a tie: with
two pairs of equal weight the first one (topic 0) is selected. -/
theorem cluster_appends_to_first_max_topic_witness :
    ∃ (i : Nat) (p : Nat × ℚ),
      ([(0, mkRat 5 10), (1, mkRat 5 10)] : List (Nat × ℚ))[i]? = some p ∧
      0 = p.1 ∧
      (∀ q ∈ ([(0, mkRat 5 10), (1, mkRat 5 10)] : List (Nat × ℚ)), q.2 ≤ p.2) ∧
      ∀ (j : Nat) (q : Nat × ℚ), j < i →
        ([(0, mkRat 5 10), (1, mkRat 5 10)] : List (Nat × ℚ))[j]? = some q →
        q.2 < p.2 :=
  cluster_appends_to_first_max_topic.1 [(0, mkRat 5 10), (1, mkRat 5 10)] 0
    (by rfl)

/-- C6: if every company before position `|pre|` resolves to a topic below
`numTopics` but the model returns an empty weight list for the corpus entry
at position `|pre|`, the clustering of `pre ++ c :: rest` is the
`ValueError` that Python's `max` raises on an empty sequence — the error
reaches the caller instead of the source being skipped. -/
theorem cluster_empty_weights_raises {D K : Type} (lda : D → List (Nat × ℚ))
    (n : Nat) (corpus : List D) (pre : List K) (c : K) (rest : List K) (d : D)
    (hpre : ∀ j, j < pre.length → ∃ t, topicAt lda corpus j = some t ∧ t < n)
    (hd : corpus[pre.length]? = some d) (hw : lda d = []) :
    cluster_companies_by_main_topic lda n corpus (pre ++ c :: rest) =
      Except.error ("ValueError: max() arg is an empty sequence") := by
  unfold cluster_companies_by_main_topic
  obtain ⟨cl', h1, h2, -⟩ := clusterGo_prefix lda corpus pre (c :: rest) 0
    (initCluster n)
    (by rw [initCluster_keys]; exact List.nodup_range n)
    (by
      intro j hj
      obtain ⟨t, ht1, ht2⟩ := hpre j hj
      refine ⟨t, by rwa [Nat.zero_add], ?_⟩
      rw [initCluster_keys]
      exact List.mem_range.2 ht2)
  rw [h1, Nat.zero_add]
  conv_lhs => rw [clusterGo]
  split
  · next heq =>
    rw [hd] at heq
    cases heq
  · next doc heq =>
    rw [hd, Option.some.injEq] at heq
    subst heq
    split
    · rfl
    · next t' heq2 =>
      rw [hw] at heq2
      rw [show selectTopic [] = (none : Option Nat) from rfl] at heq2
      cases heq2

/-- Closed instance of `cluster_empty_weights_raises`: the first source
resolves to topic 0, the second hits an empty weight list, and the whole
call returns the error. -/
theorem cluster_empty_weights_raises_witness :
    cluster_companies_by_main_topic ldaEmptyEx 1 [5, 7] (["X"] ++ ("A") :: []) =
      Except.error ("ValueError: max() arg is an empty sequence") :=
  cluster_empty_weights_raises ldaEmptyEx 1 [5, 7] [("X")] ("A") [] 7
    (by
      intro j hj
      have hj0 : j = 0 := by
        simp only [List.length_cons, List.length_nil] at hj
        omega
      subst hj0
      exact ⟨0, by rfl, by omega⟩)
    (by rfl) (by rfl)

/-- C4: when the model yields a non-empty weight list whose topic indices
all lie below `numTopics` for every company's corpus entry, the clustering
succeeds and returns one bucket per topic index `0..numTopics-1` (in index
order, possibly empty); the bucket lengths sum to the number of companies;
each company key occurs across the buckets exactly as often as it occurs in
the input; and under distinct keys every company lies in exactly one
bucket. -/
theorem cluster_partitions {D K : Type} [DecidableEq K]
    (lda : D → List (Nat × ℚ)) (n : Nat) (corpus : List D) (companies : List K)
    (H : ∀ j, j < companies.length → ∃ d, corpus[j]? = some d ∧ lda d ≠ [] ∧
        ∀ tw ∈ lda d, tw.1 < n) :
    ∃ res, cluster_companies_by_main_topic lda n corpus companies =
        Except.ok res ∧
      res.map Prod.fst = List.range n ∧
      (res.map (fun tb => tb.2.length)).sum = companies.length ∧
      (∀ c : K, (res.map (fun tb => tb.2.countP (fun x => decide (x = c)))).sum =
        companies.countP (fun x => decide (x = c))) ∧
      (companies.Nodup → ∀ c ∈ companies,
        res.countP (fun tb => decide (c ∈ tb.2)) = 1) := by
  obtain ⟨cl', h1, h2, h3⟩ := clusterGo_prefix lda corpus companies [] 0
    (initCluster n)
    (by rw [initCluster_keys]; exact List.nodup_range n)
    (by
      intro j hj
      obtain ⟨d, hd, hne, hbound⟩ := H j hj
      obtain ⟨t, p, hsel, hpmem, hpt⟩ := selectTopic_total (lda d) hne
      refine ⟨t, ?_, ?_⟩
      · rw [Nat.zero_add]
        unfold topicAt
        rw [hd, Option.some_bind]
        exact hsel
      · rw [initCluster_keys]
        exact List.mem_range.2 (hpt ▸ hbound p hpmem))
  rw [List.append_nil] at h1
  have hkeys : cl'.map Prod.fst = List.range n := by
    rw [h2, initCluster_keys]
  have hcount : ∀ p : K → Bool,
      (cl'.map (fun tb => tb.2.countP p)).sum = companies.countP p := by
    intro p
    rw [h3 p, initCluster_countP_sum, Nat.zero_add]
  refine ⟨cl', ?_, hkeys, ?_, ?_, ?_⟩
  · unfold cluster_companies_by_main_topic
    rw [h1]
    rfl
  · have := hcount (fun _ => true)
    simpa [List.countP_true] using this
  · intro c
    exact hcount (fun x => decide (x = c))
  · intro hnodup c hc
    rw [countP_buckets_containing]
    apply countP_pos_of_sum_one
    rw [hcount (fun x => decide (x = c))]
    exact countP_eq_one_of_nodup companies hnodup c hc

/-- Closed instance of `cluster_partitions` on the two-source example: both
buckets exist, the keys are split one per bucket, and the counts add up. -/
theorem cluster_partitions_witness :
    ∃ res, cluster_companies_by_main_topic ldaEx 2 [0, 1] [("A"), ("B")] =
        Except.ok res ∧
      res.map Prod.fst = List.range 2 ∧
      (res.map (fun tb => tb.2.length)).sum = [("A"), ("B")].length ∧
      (∀ c : String,
        (res.map (fun tb => tb.2.countP (fun x => decide (x = c)))).sum =
          [("A"), ("B")].countP (fun x => decide (x = c))) ∧
      ([("A"), ("B")].Nodup → ∀ c ∈ [("A"), ("B")],
        res.countP (fun tb => decide (c ∈ tb.2)) = 1) :=
  cluster_partitions ldaEx 2 [0, 1] [("A"), ("B")]
    (by
      intro j hj
      simp only [List.length_cons, List.length_nil] at hj
      match j, hj with
      | 0, _ => exact ⟨0, by rfl, by decide, by decide⟩
      | 1, _ => exact ⟨1, by rfl, by decide, by decide⟩
      | j + 2, hj => exact absurd hj (by omega))

end SecText
